import Mathlib

/-!
# Verification of the s3-explorer-static-generator key-to-tree pipeline

Shallow embedding of `src/index.ts` (the sitemap-capable version): the raw
S3 listing is a `List (Option String)` (an object's `Key` may be `undefined`),
JS strings are Lean `String`s, and the single-character `split("/")`,
`join("/")`, `startsWith` and slash-stripping operations are modelled on the
underlying `List Char`.  A thrown `TypeError` (reading `.startsWith` of
`undefined`) is modelled by `Option`: `none` means the pipeline crashed.
-/

namespace S3X

/-- Model of JS `s.startsWith(pre)`: `pre` is a literal prefix of `s`. -/
def jsStartsWith (s pre : String) : Bool :=
  pre.data.isPrefixOf s.data

/-- Model of `key.split("/").filter((part) => part.length > 0)`
(src lines 89 and 125): split on `'/'`, drop the empty segments. -/
def splitKeyF (s : String) : List String :=
  ((s.data.splitOn '/').map (fun l => String.mk l)).filter (fun part => part.length > 0)

/-- Model of JS `parts.join("/")`. -/
def joinSlash (parts : List String) : String :=
  ⟨['/'].intercalate (parts.map String.data)⟩

/-- Model of `removeLeadingTrailingSlashes` (src lines 235-247): strip every
leading `'/'`, then every trailing `'/'`.  (The JS function passes `undefined`
and `""` through unchanged; in the pipeline it is only applied to defined
strings, and on `""` the stripping below is also the identity.) -/
def removeLeadingTrailingSlashes (s : String) : String :=
  ⟨((s.data.dropWhile (fun c => c == '/')).reverse.dropWhile (fun c => c == '/')).reverse⟩

/-- JS truthiness of `options.endpoint` (`undefined` and `""` are falsy). -/
def strTruthy (s : Option String) : Bool :=
  s.getD "" != ""

/-- The configuration options threaded through the run (commander's `opts()`). -/
structure Options where
  bucket : String
  region : String
  endpoint : Option String
  forcePathStyle : Bool
  includeHiddenFiles : Bool
  includeSitemap : Bool
  domain : String
  rootPath : String
  output : String
  deriving Repr, DecidableEq

/-- One node of the reconstructed tree (the object produced by the first
`.map`, src lines 96-114, and by the ancestor synthesis, src lines 132-144). -/
structure Node where
  Key : String
  KeyParts : List String
  LevelsDeep : Nat
  IsFolder : Bool
  IsFile : Bool
  IsHiddenFile : Bool
  ParentKey : String
  FileName : String
  URL : String
  deriving Repr, DecidableEq

/-- src line 91: `array.some((otherObject) => otherObject.Key?.startsWith(object.Key ?? "")
&& otherObject.Key !== object.Key)`. -/
def isFolderB (allKeys : List (Option String)) (key : Option String) : Bool :=
  allKeys.any (fun otherKey =>
    (match otherKey with
     | some o => jsStartsWith o (key.getD "")
     | none => false)
    && otherKey != key)

/-- src lines 105-113: the `URL` field. -/
def computeURL (opts : Options) (isFolder : Bool) (keyParts : List String) : String :=
  if isFolder then
    joinSlash (opts.rootPath :: keyParts)
  else if strTruthy opts.endpoint then
    opts.endpoint.getD "" ++ "/" ++ opts.bucket ++ "/" ++ joinSlash keyParts
  else
    "https://" ++ (if opts.forcePathStyle then "" else opts.bucket ++ ".") ++
      "s3-" ++ opts.region ++ ".amazonaws.com" ++
      (if opts.forcePathStyle then "/" ++ opts.bucket else "") ++
      "/" ++ joinSlash keyParts

/-- One step of the first `.map` (src lines 88-115).  `keyParts` is
`(object.Key?.split("/") ?? []).filter(...)`; `fileName` is
`keyParts[keyParts.length - 1]`, which is `undefined` exactly when `keyParts`
is empty, in which case `fileName.startsWith(".")` throws (modelled: `none`). -/
def mkNode (opts : Options) (allKeys : List (Option String)) (key : Option String) :
    Option Node :=
  let keyParts := (key.map splitKeyF).getD []
  (keyParts.getLast?).map (fun fileName =>
    { Key := key.getD ""
      KeyParts := keyParts
      LevelsDeep := keyParts.length
      IsFolder := isFolderB allKeys key
      IsFile := !isFolderB allKeys key
      IsHiddenFile := jsStartsWith fileName "."
      ParentKey := joinSlash keyParts.dropLast
      FileName := fileName
      URL := computeURL opts (isFolderB allKeys key) keyParts })

/-- The whole first `.map` stage.  JS `Array.prototype.map` evaluates left to
right and the first thrown `TypeError` aborts the run, hence the `Option`. -/
def mapNodes (opts : Options) (allKeys : List (Option String)) :
    List (Option String) → Option (List Node)
  | [] => some []
  | k :: rest =>
    match mkNode opts allKeys k with
    | none => none
    | some n => (mapNodes opts allKeys rest).map (fun ns => n :: ns)

/-- The synthesized ancestor pushed for loop index `i` (src lines 118-147):
`key = object.KeyParts.slice(0, i).join("/")`, replaced by `"/"` when empty;
all synthesized nodes are folders and use the rootPath-relative URL. -/
def synthAncestor (opts : Options) (kp : List String) (i : Nat) : Node :=
  let key0 := joinSlash (kp.take i)
  let key := if key0.length == 0 then "/" else key0
  let keyParts := splitKeyF key
  let fileName := (keyParts.getLast?).getD ""
  { Key := key
    KeyParts := keyParts
    LevelsDeep := keyParts.length
    IsFolder := true
    IsFile := false
    IsHiddenFile := jsStartsWith fileName "."
    ParentKey := joinSlash keyParts.dropLast
    FileName := fileName
    URL := joinSlash (opts.rootPath :: keyParts) }

/-- The `.flatMap` stage (src lines 115-149): the node itself followed by its
synthesized ancestors for `i = LevelsDeep - 1` down to `0`. -/
def flatStage (opts : Options) (node : Node) : List Node :=
  node :: ((List.range node.LevelsDeep).reverse.map (synthAncestor opts node.KeyParts))

/-- The dedup `.filter` (src lines 150-152): keep the element at position
`index` iff the first position holding the same normalized key is `index`. -/
def dedupF (l : List Node) : List Node :=
  (l.enum.filter (fun p =>
    l.findIdx (fun otherObject =>
      removeLeadingTrailingSlashes otherObject.Key ==
        removeLeadingTrailingSlashes p.2.Key) == p.1)).map (fun p => p.2)

/-- A node together with its `Children` (the final `.map`, src lines 153-158,
spreads the node and adds `Children`, whose elements are the pre-`Children`
nodes of the deduped array). -/
structure FinalNode where
  node : Node
  Children : List Node
  deriving Repr, DecidableEq

/-- src lines 153-158: attach `Children` relative to the deduped array `arr`. -/
def attachChildren (arr : List Node) (object : Node) : FinalNode :=
  { node := object
    Children :=
      if object.Key == "/" then
        arr.filter (fun otherObject => otherObject.LevelsDeep == 1)
      else
        arr.filter (fun otherObject =>
          removeLeadingTrailingSlashes otherObject.ParentKey ==
            removeLeadingTrailingSlashes object.Key) }

/-- The final `.map` stage. -/
def childrenStage (arr : List Node) : List FinalNode :=
  arr.map (attachChildren arr)

/-- The whole `result` pipeline (src lines 88-158). -/
def buildTree (opts : Options) (listing : List (Option String)) :
    Option (List FinalNode) :=
  (mapNodes opts listing listing).map (fun nodes =>
    childrenStage (dedupF (nodes.flatMap (flatStage opts))))

/-- The rendered listing model's filter (src line 171):
`object.Children.filter((child) => options.includeHiddenFiles || !child.IsHiddenFile)`.
The subsequent `.sort` only permutes this list. -/
def listedItems (opts : Options) (f : FinalNode) : List Node :=
  f.Children.filter (fun child => opts.includeHiddenFiles || !child.IsHiddenFile)

/-! ## Lemmas about the folder classifier -/

theorem isFolderB_some_iff (allKeys : List (Option String)) (s : String) :
    isFolderB allKeys (some s) = true ↔
      ∃ s', some s' ∈ allKeys ∧ jsStartsWith s' s = true ∧ s' ≠ s := by
  unfold isFolderB
  rw [List.any_eq_true]
  constructor
  · rintro ⟨ok, hmem, hok⟩
    rw [Bool.and_eq_true] at hok
    obtain ⟨h1, h2⟩ := hok
    match ok, hmem, h1, h2 with
    | some o, hmem, h1, h2 =>
      refine ⟨o, hmem, h1, ?_⟩
      simpa using h2
  · rintro ⟨s', hmem, hpre, hne⟩
    refine ⟨some s', hmem, ?_⟩
    simp [Option.getD, hpre, hne]

theorem mkNode_eq_some_iff (opts : Options) (allKeys : List (Option String))
    (key : Option String) (n : Node) :
    mkNode opts allKeys key = some n ↔
      ∃ fileName, ((key.map splitKeyF).getD []).getLast? = some fileName ∧
        n = { Key := key.getD ""
              KeyParts := (key.map splitKeyF).getD []
              LevelsDeep := ((key.map splitKeyF).getD []).length
              IsFolder := isFolderB allKeys key
              IsFile := !isFolderB allKeys key
              IsHiddenFile := jsStartsWith fileName "."
              ParentKey := joinSlash ((key.map splitKeyF).getD []).dropLast
              FileName := fileName
              URL := computeURL opts (isFolderB allKeys key)
                       ((key.map splitKeyF).getD []) } := by
  unfold mkNode
  rw [Option.map_eq_some']
  constructor
  · rintro ⟨fn, hfn, rfl⟩
    exact ⟨fn, hfn, rfl⟩
  · rintro ⟨fn, hfn, rfl⟩
    exact ⟨fn, hfn, rfl⟩

/-- **C1.**  A listed object key is classified as a folder iff some other key
in the complete listing starts with it as a raw string prefix and differs from
it, and otherwise it is a file (`IsFile` is the negation of `IsFolder`). -/
theorem c1_folder_classification (opts : Options) (allKeys : List (Option String))
    (s : String) (n : Node) (h : mkNode opts allKeys (some s) = some n) :
    (n.IsFolder = true ↔ ∃ s', some s' ∈ allKeys ∧ jsStartsWith s' s = true ∧ s' ≠ s)
    ∧ n.IsFile = !n.IsFolder := by
  rw [mkNode_eq_some_iff] at h
  obtain ⟨fn, _, rfl⟩ := h
  exact ⟨isFolderB_some_iff allKeys s, rfl⟩

/-- Concrete default options used by the witnesses below (bucket set, no
endpoint, no sitemap, hidden files excluded, rootPath `/`). -/
def opts0 : Options :=
  { bucket := "b", region := "r", endpoint := none, forcePathStyle := false,
    includeHiddenFiles := false, includeSitemap := false, domain := "",
    rootPath := "/", output := "." }

/-- A throwaway `Node` used as the default of `Option.getD` in witnesses. -/
def node0 : Node :=
  { Key := "", KeyParts := [], LevelsDeep := 0, IsFolder := false, IsFile := true,
    IsHiddenFile := false, ParentKey := "", FileName := "", URL := "" }

/-- The quirk listing `["a", "ab"]`. -/
def keysAB : List (Option String) := [some "a", some "ab"]

/-- The node the classifier produces for key `"a"` in the listing `["a", "ab"]`. -/
def nodeA : Node := (mkNode opts0 keysAB (some "a")).getD node0

/-- **C1 witness.**  For the listing `["a", "ab"]`, the key `"a"` is classified
as a folder (the documented quirk). -/
theorem c1_folder_classification_witness :
    mkNode opts0 keysAB (some "a") = some nodeA ∧ nodeA.IsFolder = true ∧
      (nodeA.IsFolder = true ↔
        ∃ s', some s' ∈ keysAB ∧ jsStartsWith s' "a" = true ∧ s' ≠ "a") :=
  ⟨rfl, by decide, (c1_folder_classification opts0 keysAB "a" nodeA rfl).1⟩

/-! ## C7: URL resolution -/

/-- **C7.**  URL resolution order: a folder node's URL is the root path joined
with its key parts (no endpoint, bucket or region appears); otherwise, with a
custom endpoint configured, the URL is `endpoint + "/" + bucket + "/" + parts`;
otherwise the path-style or virtual-hosted S3 URL is selected by the
force-path-style flag.  `computeURL` is a pure function of its arguments, hence
deterministic. -/
theorem c7_url_resolution (opts : Options) (keyParts : List String) :
    computeURL opts true keyParts = joinSlash (opts.rootPath :: keyParts)
    ∧ computeURL opts false keyParts =
        (if strTruthy opts.endpoint then
          opts.endpoint.getD "" ++ "/" ++ opts.bucket ++ "/" ++ joinSlash keyParts
        else if opts.forcePathStyle then
          "https://s3-" ++ opts.region ++ ".amazonaws.com/" ++ opts.bucket ++ "/" ++
            joinSlash keyParts
        else
          "https://" ++ opts.bucket ++ ".s3-" ++ opts.region ++ ".amazonaws.com/" ++
            joinSlash keyParts) := by
  refine ⟨rfl, ?_⟩
  unfold computeURL
  by_cases he : strTruthy opts.endpoint = true
  · simp [he]
  · by_cases hp : opts.forcePathStyle = true
    · simp only [Bool.not_eq_true] at he
      simp only [he, hp, Bool.false_eq_true, if_false, if_true]
      apply String.ext
      simp [List.append_assoc]
    · simp only [Bool.not_eq_true] at he hp
      simp only [he, hp, Bool.false_eq_true, if_false]
      apply String.ext
      simp [List.append_assoc]

/-! ## C8: the sitemap guard -/

/-- Outcome of one run of the main routine: `exitCode = some 1` models
`process.exit(1)` (and the crash of the pipeline on a degenerate key, which in
Node aborts the run with a non-zero code); `listedBucket` records whether the
`ListObjects` loop was ever entered; `writes` lists the files written. -/
structure RunResult where
  exitCode : Option Nat
  listedBucket : Bool
  writes : List String
  deriving Repr, DecidableEq

/-- Control-flow model of the main routine (src lines 36-216): the
forcePathStyle adjustment (39-42), the sitemap guard (43-46), the bucket guard
(67-70), then the listing loop, the `result` pipeline, one `index.html` write
per non-file node (164-192) and the optional `sitemap.xml` write (195-212). -/
def runMain (opts : Options) (listing : List (Option String)) : RunResult :=
  let opts := if strTruthy opts.endpoint && !opts.forcePathStyle then
    { opts with forcePathStyle := true } else opts
  if opts.includeSitemap && opts.domain == "" then
    { exitCode := some 1, listedBucket := false, writes := [] }
  else if opts.bucket == "" then
    { exitCode := some 1, listedBucket := false, writes := [] }
  else
    match buildTree opts listing with
    | none => { exitCode := some 1, listedBucket := true, writes := [] }
    | some tree =>
      { exitCode := none
        listedBucket := true
        writes :=
          ((tree.filter (fun f => !f.node.IsFile)).map
            (fun f => f.node.Key ++ "/index.html"))
          ++ (if opts.includeSitemap then ["sitemap.xml"] else []) }

/-- **C8.**  If include-sitemap is set and no domain is configured, the run
exits with code 1 before the listing loop is entered and with no file
written. -/
theorem c8_sitemap_guard (opts : Options) (listing : List (Option String))
    (hs : opts.includeSitemap = true) (hd : opts.domain = "") :
    runMain opts listing =
      { exitCode := some 1, listedBucket := false, writes := [] } := by
  unfold runMain
  cases h : (strTruthy opts.endpoint && !opts.forcePathStyle) <;> simp [h, hs, hd]

/-- Options with include-sitemap set but no domain. -/
def optsSitemapNoDomain : Options :=
  { bucket := "b", region := "r", endpoint := none, forcePathStyle := false,
    includeHiddenFiles := false, includeSitemap := true, domain := "",
    rootPath := "/", output := "." }

/-- **C8 witness.**  A concrete run with include-sitemap set and no domain:
exit code 1, no listing, no writes. -/
theorem c8_sitemap_guard_witness :
    optsSitemapNoDomain.includeSitemap = true ∧ optsSitemapNoDomain.domain = "" ∧
      runMain optsSitemapNoDomain [some "a/b.txt"] =
        { exitCode := some 1, listedBucket := false, writes := [] } :=
  ⟨rfl, rfl, c8_sitemap_guard optsSitemapNoDomain [some "a/b.txt"] rfl rfl⟩

/-! ## Facts about splitting and joining on `'/'` -/

theorem splitOnP_forall_not (p : Char → Bool) (l : List Char) :
    ∀ chunk ∈ l.splitOnP p, ∀ a ∈ chunk, ¬p a = true := by
  induction l with
  | nil =>
    intro chunk hc a ha
    rw [List.splitOnP_nil] at hc
    simp only [List.mem_singleton] at hc
    subst hc
    simp at ha
  | cons x xs ih =>
    intro chunk hc a ha
    rw [List.splitOnP_cons] at hc
    by_cases hx : p x = true
    · rw [if_pos hx] at hc
      rcases List.mem_cons.mp hc with h | h
      · subst h; simp at ha
      · exact ih chunk h a ha
    · rw [if_neg hx] at hc
      cases hsplit : xs.splitOnP p with
      | nil => exact absurd hsplit (List.splitOnP_ne_nil p xs)
      | cons hd tl =>
        rw [hsplit, List.modifyHead_cons] at hc
        rcases List.mem_cons.mp hc with h | h
        · subst h
          rcases List.mem_cons.mp ha with rfl | ha'
          · exact hx
          · exact ih hd (by rw [hsplit]; exact List.mem_cons_self hd tl) a ha'
        · exact ih chunk (by rw [hsplit]; exact List.mem_cons_of_mem hd h) a ha

theorem splitOn_slash_not_mem (l : List Char) :
    ∀ chunk ∈ l.splitOn '/', '/' ∉ chunk := by
  intro chunk hc hmem
  have := splitOnP_forall_not (fun c => c == '/') l chunk hc '/' hmem
  simp at this

theorem mem_splitKeyF (s part : String) (h : part ∈ splitKeyF s) :
    part.data ≠ [] ∧ '/' ∉ part.data := by
  unfold splitKeyF at h
  rw [List.mem_filter] at h
  obtain ⟨hmem, hlen⟩ := h
  rw [List.mem_map] at hmem
  obtain ⟨l, hl, rfl⟩ := hmem
  refine ⟨?_, splitOn_slash_not_mem s.data l hl⟩
  intro hnil
  have : (String.mk l).length = 0 := by
    show l.length = 0
    rw [List.length_eq_zero]
    exact hnil
  simp [this] at hlen

theorem mk_data_eq (s : String) : String.mk s.data = s := by
  cases s
  rfl

theorem joinSlash_nil : joinSlash [] = "" := rfl

theorem splitKeyF_joinSlash (L : List String)
    (h : ∀ part ∈ L, part.data ≠ [] ∧ '/' ∉ part.data) :
    splitKeyF (joinSlash L) = L := by
  cases L with
  | nil => rfl
  | cons a L' =>
    unfold splitKeyF joinSlash
    have hsplit : (['/'].intercalate ((a :: L').map String.data)).splitOn '/' =
        (a :: L').map String.data := by
      apply List.splitOn_intercalate
      · intro l hl
        rw [List.mem_map] at hl
        obtain ⟨p, hp, rfl⟩ := hl
        exact (h p hp).2
      · simp
    have hdata : (String.mk (['/'].intercalate ((a :: L').map String.data))).data =
        ['/'].intercalate ((a :: L').map String.data) := rfl
    rw [hdata, hsplit, List.map_map]
    have hmapid : ((a :: L').map (String.mk ∘ String.data)) = a :: L' := by
      have hcongr : (a :: L').map (String.mk ∘ String.data) = (a :: L').map id :=
        List.map_congr_left (fun p _ => mk_data_eq p)
      rw [hcongr, List.map_id]
    rw [hmapid, List.filter_eq_self]
    intro part hp
    have hne := (h part hp).1
    simp only [decide_eq_true_eq]
    show 0 < part.data.length
    cases hd : part.data with
    | nil => exact absurd hd hne
    | cons c cs => simp [hd]

/-- **C9.**  Key parsing (split on `'/'`, discard empty segments) is
idempotent: rejoining the segments with `"/"` and reparsing yields the same
segment sequence, for every raw key string. -/
theorem c9_keyParts_idempotent (s : String) :
    splitKeyF (joinSlash (splitKeyF s)) = splitKeyF s :=
  splitKeyF_joinSlash (splitKeyF s) (fun part hp => mem_splitKeyF s part hp)

/-! ## C10: degenerate keys crash the classifier -/

theorem splitOn_cons_eq (sep x : Char) (xs : List Char) :
    (x :: xs).splitOn sep =
      if x == sep then [] :: xs.splitOn sep
      else (xs.splitOn sep).modifyHead (List.cons x) := by
  show (x :: xs).splitOnP (· == sep) = _
  rw [List.splitOnP_cons]
  rfl

theorem splitOn_ne_nil (sep : Char) (xs : List Char) : xs.splitOn sep ≠ [] :=
  List.splitOnP_ne_nil _ xs

theorem splitOn_all_nil_iff (l : List Char) :
    (∀ chunk ∈ l.splitOn '/', chunk = []) ↔ ∀ c ∈ l, c = '/' := by
  induction l with
  | nil =>
    simp only [List.splitOn, List.splitOnP_nil]
    simp
  | cons c cs ih =>
    rw [splitOn_cons_eq]
    by_cases hc : (c == '/') = true
    · rw [if_pos hc]
      have hceq : c = '/' := eq_of_beq hc
      subst hceq
      constructor
      · intro h c' hc'
        rcases List.mem_cons.mp hc' with rfl | hmem
        · rfl
        · exact ih.mp (fun chunk hchunk => h chunk (List.mem_cons_of_mem _ hchunk)) c' hmem
      · intro h chunk hchunk
        rcases List.mem_cons.mp hchunk with rfl | hmem
        · rfl
        · exact ih.mpr (fun c' hc' => h c' (List.mem_cons_of_mem _ hc')) chunk hmem
    · rw [if_neg hc]
      constructor
      · intro h
        exfalso
        cases hsplit : cs.splitOn '/' with
        | nil => exact absurd hsplit (splitOn_ne_nil '/' cs)
        | cons hd tl =>
          have hmem : (c :: hd) ∈ ((cs.splitOn '/').modifyHead (List.cons c)) := by
            rw [hsplit, List.modifyHead_cons]
            exact List.mem_cons_self _ _
          exact List.cons_ne_nil c hd (h (c :: hd) hmem)
      · intro h
        exfalso
        have hcslash := h c (List.mem_cons_self c cs)
        rw [hcslash] at hc
        simp at hc

theorem splitKeyF_eq_nil_iff (s : String) :
    splitKeyF s = [] ↔ ∀ c ∈ s.data, c = '/' := by
  unfold splitKeyF
  rw [List.filter_eq_nil_iff, ← splitOn_all_nil_iff]
  constructor
  · intro h chunk hchunk
    have := h (String.mk chunk) (List.mem_map_of_mem String.mk hchunk)
    simp only [decide_eq_true_eq, not_lt, Nat.le_zero] at this
    rwa [show (String.mk chunk).length = chunk.length from rfl, List.length_eq_zero] at this
  · intro h part hpart
    rw [List.mem_map] at hpart
    obtain ⟨chunk, hchunk, rfl⟩ := hpart
    have := h chunk hchunk
    subst this
    simp

theorem mkNode_eq_none_iff (opts : Options) (allKeys : List (Option String))
    (key : Option String) :
    mkNode opts allKeys key = none ↔
      key = none ∨ ∃ s, key = some s ∧ ∀ c ∈ s.data, c = '/' := by
  unfold mkNode
  rw [Option.map_eq_none', List.getLast?_eq_none_iff]
  cases key with
  | none => simp
  | some s => simp [splitKeyF_eq_nil_iff]

theorem mapNodes_eq_none_iff (opts : Options) (allKeys l : List (Option String)) :
    mapNodes opts allKeys l = none ↔ ∃ k ∈ l, mkNode opts allKeys k = none := by
  induction l with
  | nil => simp [mapNodes]
  | cons k rest ih =>
    unfold mapNodes
    cases h : mkNode opts allKeys k with
    | none => simp [h]
    | some n => simp [h, ih]

/-- **C10.**  The classifier is total exactly on keys with at least one
non-empty segment: a node fails to be produced iff the key is `undefined` or
all of its characters are slashes (subsuming the empty string), which is also
exactly when the parsed segment list is empty (`FileName` is then `undefined`
and `FileName.startsWith` throws); and the whole pipeline crashes iff the
listing contains such a key. -/
theorem c10_degenerate_keys (opts : Options) (allKeys : List (Option String))
    (key : Option String) :
    (mkNode opts allKeys key = none ↔ (key.map splitKeyF).getD [] = [])
    ∧ ((key.map splitKeyF).getD [] = [] ↔
        key = none ∨ ∃ s, key = some s ∧ ∀ c ∈ s.data, c = '/')
    ∧ (buildTree opts allKeys = none ↔
        ∃ k ∈ allKeys, (k.map splitKeyF).getD [] = []) := by
  have hparse : ∀ k : Option String, ((k.map splitKeyF).getD [] = [] ↔
      k = none ∨ ∃ s, k = some s ∧ ∀ c ∈ s.data, c = '/') := by
    intro k
    cases k with
    | none => simp
    | some s => simp [splitKeyF_eq_nil_iff]
  have hnode : ∀ k : Option String, (mkNode opts allKeys k = none ↔
      (k.map splitKeyF).getD [] = []) := by
    intro k
    rw [mkNode_eq_none_iff, hparse]
  refine ⟨hnode key, hparse key, ?_⟩
  unfold buildTree
  rw [Option.map_eq_none', mapNodes_eq_none_iff]
  constructor
  · rintro ⟨k, hk, hnone⟩
    exact ⟨k, hk, (hnode k).mp hnone⟩
  · rintro ⟨k, hk, hdeg⟩
    exact ⟨k, hk, (hnode k).mpr hdeg⟩

/-! ## The deduplication filter -/

theorem find?_iff_getElem?_findIdx {α} (p : α → Bool) (l : List α) (y : α) :
    l.find? p = some y ↔ l[l.findIdx p]? = some y := by
  induction l with
  | nil => simp
  | cons a as ih =>
    by_cases h : p a = true
    · simp [List.find?_cons_of_pos _ h, List.findIdx_cons, h]
    · simp [List.find?_cons_of_neg _ h, List.findIdx_cons, h, ih]

theorem mem_dedupF_iff (l : List Node) (y : Node) :
    y ∈ dedupF l ↔
      l.find? (fun otherObject =>
        removeLeadingTrailingSlashes otherObject.Key ==
          removeLeadingTrailingSlashes y.Key) = some y := by
  unfold dedupF
  rw [List.mem_map]
  constructor
  · rintro ⟨⟨i, y'⟩, hmem, hy⟩
    cases hy
    rw [List.mem_filter] at hmem
    obtain ⟨henum, hpred⟩ := hmem
    rw [List.mem_enum_iff_getElem?] at henum
    have hidx : l.findIdx (fun otherObject =>
        removeLeadingTrailingSlashes otherObject.Key ==
          removeLeadingTrailingSlashes y'.Key) = i := by
      simpa using hpred
    rw [find?_iff_getElem?_findIdx, hidx]
    exact henum
  · intro hfind
    refine ⟨(l.findIdx (fun otherObject =>
        removeLeadingTrailingSlashes otherObject.Key ==
          removeLeadingTrailingSlashes y.Key), y), ?_, rfl⟩
    rw [List.mem_filter]
    refine ⟨?_, by simp⟩
    rw [List.mem_enum_iff_getElem?]
    exact (find?_iff_getElem?_findIdx _ l y).mp hfind

theorem dedupF_subset (l : List Node) (y : Node) (h : y ∈ dedupF l) : y ∈ l :=
  List.mem_of_find?_eq_some ((mem_dedupF_iff l y).mp h)

theorem mem_enumFrom_fst_le {α} (l : List α) :
    ∀ (n : Nat) (p : Nat × α), p ∈ l.enumFrom n → n ≤ p.1 := by
  induction l with
  | nil => simp
  | cons a as ih =>
    intro n p hp
    rw [List.enumFrom_cons] at hp
    rcases List.mem_cons.mp hp with rfl | hmem
    · exact Nat.le_refl n
    · exact Nat.le_trans (Nat.le_succ n) (ih (n + 1) p hmem)

theorem enumFrom_pairwise_fst_lt {α} (l : List α) :
    ∀ n : Nat, (l.enumFrom n).Pairwise (fun a b => a.1 < b.1) := by
  induction l with
  | nil => simp
  | cons a as ih =>
    intro n
    rw [List.enumFrom_cons]
    refine List.Pairwise.cons ?_ (ih (n + 1))
    intro p hp
    exact Nat.lt_of_lt_of_le (Nat.lt_succ_self n) (mem_enumFrom_fst_le as (n + 1) p hp)

theorem enum_pairwise_fst_lt {α} (l : List α) :
    l.enum.Pairwise (fun a b => a.1 < b.1) :=
  enumFrom_pairwise_fst_lt l 0

theorem dedupF_pairwise_norm_ne (l : List Node) :
    (dedupF l).Pairwise (fun a b =>
      removeLeadingTrailingSlashes a.Key ≠ removeLeadingTrailingSlashes b.Key) := by
  unfold dedupF
  rw [List.pairwise_map]
  have h1 := (enum_pairwise_fst_lt l).filter (fun p =>
    l.findIdx (fun otherObject =>
      removeLeadingTrailingSlashes otherObject.Key ==
        removeLeadingTrailingSlashes p.2.Key) == p.1)
  refine h1.imp_of_mem ?_
  intro a b ha hb hlt heq
  have hpa : l.findIdx (fun otherObject =>
      removeLeadingTrailingSlashes otherObject.Key ==
        removeLeadingTrailingSlashes a.2.Key) = a.1 := by
    simpa using (List.mem_filter.mp ha).2
  have hpb : l.findIdx (fun otherObject =>
      removeLeadingTrailingSlashes otherObject.Key ==
        removeLeadingTrailingSlashes b.2.Key) = b.1 := by
    simpa using (List.mem_filter.mp hb).2
  have hpred : (fun otherObject : Node =>
      removeLeadingTrailingSlashes otherObject.Key ==
        removeLeadingTrailingSlashes a.2.Key) =
      (fun otherObject : Node =>
        removeLeadingTrailingSlashes otherObject.Key ==
          removeLeadingTrailingSlashes b.2.Key) := by
    funext z
    rw [heq]
  rw [hpred, hpb] at hpa
  exact absurd (hpa ▸ hlt) (Nat.lt_irrefl b.1)

theorem dedupF_covers (l : List Node) (x : Node) (hx : x ∈ l) :
    ∃ y, y ∈ dedupF l ∧
      removeLeadingTrailingSlashes y.Key = removeLeadingTrailingSlashes x.Key ∧
      l.find? (fun otherObject =>
        removeLeadingTrailingSlashes otherObject.Key ==
          removeLeadingTrailingSlashes x.Key) = some y := by
  have hsome : (l.find? (fun otherObject =>
      removeLeadingTrailingSlashes otherObject.Key ==
        removeLeadingTrailingSlashes x.Key)).isSome := by
    rw [List.find?_isSome]
    exact ⟨x, hx, by simp⟩
  obtain ⟨y, hy⟩ := Option.isSome_iff_exists.mp hsome
  have hnorm : removeLeadingTrailingSlashes y.Key =
      removeLeadingTrailingSlashes x.Key := by
    simpa using List.find?_some hy
  refine ⟨y, ?_, hnorm, hy⟩
  rw [mem_dedupF_iff]
  have hpred : (fun otherObject : Node =>
      removeLeadingTrailingSlashes otherObject.Key ==
        removeLeadingTrailingSlashes y.Key) =
      (fun otherObject : Node =>
        removeLeadingTrailingSlashes otherObject.Key ==
          removeLeadingTrailingSlashes x.Key) := by
    funext z
    rw [hnorm]
  rw [hpred]
  exact hy

/-- **C2.**  After the synthesize-and-merge step, deduplication leaves no two
nodes with the same slash-normalized key (and the final tree inherits this),
and an element is kept iff it is the first entry of the merged sequence
holding its normalized key (so the kept node of every normalized-key group is
the group's first occurrence). -/
theorem c2_dedup_invariant (opts : Options) (listing : List (Option String))
    (nodes : List Node) (h : mapNodes opts listing listing = some nodes) :
    (dedupF (nodes.flatMap (flatStage opts))).Pairwise (fun a b =>
      removeLeadingTrailingSlashes a.Key ≠ removeLeadingTrailingSlashes b.Key)
    ∧ (∀ y, y ∈ dedupF (nodes.flatMap (flatStage opts)) ↔
        (nodes.flatMap (flatStage opts)).find? (fun otherObject =>
          removeLeadingTrailingSlashes otherObject.Key ==
            removeLeadingTrailingSlashes y.Key) = some y)
    ∧ (∀ x ∈ nodes.flatMap (flatStage opts),
        ∃ y ∈ dedupF (nodes.flatMap (flatStage opts)),
          removeLeadingTrailingSlashes y.Key = removeLeadingTrailingSlashes x.Key)
    ∧ (∀ tree, buildTree opts listing = some tree →
        tree.Pairwise (fun a b =>
          removeLeadingTrailingSlashes a.node.Key ≠
            removeLeadingTrailingSlashes b.node.Key)) := by
  refine ⟨dedupF_pairwise_norm_ne _, fun y => mem_dedupF_iff _ y, ?_, ?_⟩
  · intro x hx
    obtain ⟨y, hy, hnorm, _⟩ := dedupF_covers _ x hx
    exact ⟨y, hy, hnorm⟩
  · intro tree htree
    unfold buildTree at htree
    rw [Option.map_eq_some'] at htree
    obtain ⟨nodes', hn', rfl⟩ := htree
    rw [h] at hn'
    obtain rfl := Option.some.inj hn'
    unfold childrenStage
    rw [List.pairwise_map]
    exact dedupF_pairwise_norm_ne _

/-- The listing with both the bare key and the trailing-slash key form. -/
def keysSlash : List (Option String) := [some "a/", some "a/b"]

/-- The classified nodes of `keysSlash`. -/
def nodesSlash : List Node := (mapNodes opts0 keysSlash keysSlash).getD []

/-- **C2 witness.**  On the listing `["a/", "a/b"]` (where `"a/"` and the
synthesized ancestor `"a"` collapse to one node) the dedup invariant holds. -/
theorem c2_dedup_invariant_witness :
    mapNodes opts0 keysSlash keysSlash = some nodesSlash ∧
      ((dedupF (nodesSlash.flatMap (flatStage opts0))).Pairwise (fun a b =>
        removeLeadingTrailingSlashes a.Key ≠ removeLeadingTrailingSlashes b.Key)
      ∧ (∀ y, y ∈ dedupF (nodesSlash.flatMap (flatStage opts0)) ↔
          (nodesSlash.flatMap (flatStage opts0)).find? (fun otherObject =>
            removeLeadingTrailingSlashes otherObject.Key ==
              removeLeadingTrailingSlashes y.Key) = some y)
      ∧ (∀ x ∈ nodesSlash.flatMap (flatStage opts0),
          ∃ y ∈ dedupF (nodesSlash.flatMap (flatStage opts0)),
            removeLeadingTrailingSlashes y.Key =
              removeLeadingTrailingSlashes x.Key)
      ∧ (∀ tree, buildTree opts0 keysSlash = some tree →
          tree.Pairwise (fun a b =>
            removeLeadingTrailingSlashes a.node.Key ≠
              removeLeadingTrailingSlashes b.node.Key))) :=
  ⟨rfl, c2_dedup_invariant opts0 keysSlash nodesSlash rfl⟩

/-! ## C6: the empty listing -/

/-- **C6 counterexample.**  On the empty listing the pipeline returns the empty
node list: there is no root node at all (the claimed tree has exactly one node,
the root), and consequently no listing page is emitted. -/
theorem c6_counterexample :
    buildTree opts0 [] = some [] ∧
      ((buildTree opts0 []).getD []).length = 0 ∧
      ¬((buildTree opts0 []).getD []).length = 1 :=
  ⟨rfl, rfl, by decide⟩

/-- **C6 (amended).**  When the bucket listing is empty the reconstruction
produces the empty node list — no root node is synthesized (ancestors are only
synthesized from listed objects) — and hence no folder node exists to emit a
page for. -/
theorem c6_empty_listing (opts : Options) :
    buildTree opts [] = some []
    ∧ (buildTree opts []).map (fun tree => tree.filter (fun f => !f.node.IsFile)) =
        some [] :=
  ⟨rfl, rfl⟩

/-! ## C4: the children linkage -/

theorem childrenStage_map_node (arr : List Node) :
    (childrenStage arr).map FinalNode.node = arr := by
  unfold childrenStage
  rw [List.map_map]
  have hcomp : FinalNode.node ∘ attachChildren arr = id := by
    funext o
    rfl
  rw [hcomp, List.map_id]

/-- **C4.**  In the final tree, every folder node's `Children` list is exactly
the nodes whose normalized `ParentKey` equals the folder's normalized `Key`,
except the root node (key `"/"`), whose `Children` are exactly the depth-1
nodes. -/
theorem c4_children (opts : Options) (listing : List (Option String))
    (tree : List FinalNode) (h : buildTree opts listing = some tree)
    (f : FinalNode) (hf : f ∈ tree) (_hfolder : f.node.IsFolder = true) :
    f.Children =
      if f.node.Key == "/" then
        (tree.map FinalNode.node).filter (fun otherObject =>
          otherObject.LevelsDeep == 1)
      else
        (tree.map FinalNode.node).filter (fun otherObject =>
          removeLeadingTrailingSlashes otherObject.ParentKey ==
            removeLeadingTrailingSlashes f.node.Key) := by
  unfold buildTree at h
  rw [Option.map_eq_some'] at h
  obtain ⟨nodes, _, htree⟩ := h
  subst htree
  rw [childrenStage_map_node]
  unfold childrenStage at hf
  rcases List.mem_map.mp hf with ⟨o, _, rfl⟩
  rfl

/-- The one-file listing used to instantiate C4. -/
def keysDocs : List (Option String) := [some "docs/readme.md"]

/-- Its tree: `[readme.md file, docs folder, root]`. -/
def treeDocs : List FinalNode := (buildTree opts0 keysDocs).getD []

/-- The root entry of `treeDocs`. -/
def rootDocs : FinalNode := treeDocs.getD 2 ⟨node0, []⟩

/-- **C4 witness.**  On the listing `["docs/readme.md"]`, the root folder's
children are exactly the depth-1 nodes. -/
theorem c4_children_witness :
    buildTree opts0 keysDocs = some treeDocs ∧ rootDocs ∈ treeDocs ∧
      rootDocs.node.IsFolder = true ∧
      rootDocs.Children =
        (if rootDocs.node.Key == "/" then
          (treeDocs.map FinalNode.node).filter (fun otherObject =>
            otherObject.LevelsDeep == 1)
        else
          (treeDocs.map FinalNode.node).filter (fun otherObject =>
            removeLeadingTrailingSlashes otherObject.ParentKey ==
              removeLeadingTrailingSlashes rootDocs.node.Key)) :=
  ⟨rfl, by decide, by decide,
    c4_children opts0 keysDocs treeDocs rfl rootDocs (by decide) (by decide)⟩

/-! ## C5: the hidden-entry filter -/

/-- The listing whose only object lies under a dot-folder. -/
def keysHidden : List (Option String) := [some ".git/config"]

/-- Its tree: `[config file, .git folder, root]`. -/
def treeHidden : List FinalNode := (buildTree opts0 keysHidden).getD []

/-- The root entry of `treeHidden`. -/
def rootHidden : FinalNode := treeHidden.getD 2 ⟨node0, []⟩

/-- The `.git` folder node, the root's only child. -/
def gitNode : Node := rootHidden.Children.getD 0 node0

/-- **C5 counterexample.**  With include-hidden-files unset, the folder `.git`
(a hidden *folder*, not a file) is excluded from the root's rendered listing:
hidden folders are *not* immune to the filter, because synthesized folder
nodes also carry `IsHiddenFile` (src line 138). -/
theorem c5_counterexample :
    buildTree opts0 keysHidden = some treeHidden ∧
      rootHidden ∈ treeHidden ∧ rootHidden.node.IsFolder = true ∧
      gitNode ∈ rootHidden.Children ∧ gitNode.IsFolder = true ∧
      gitNode.IsHiddenFile = true ∧ opts0.includeHiddenFiles = false ∧
      gitNode ∉ listedItems opts0 rootHidden :=
  ⟨rfl, by decide, by decide, by decide, by decide, by decide, rfl, by decide⟩

/-- **C5 (amended).**  A child is excluded from a folder's rendered listing
iff its `IsHiddenFile` flag (its last key segment starts with `"."`) is set
and the include-hidden-files option is unset — this applies to folder children
just as to file children; dotted folders are excluded too. -/
theorem c5_hidden_filter (opts : Options) (f : FinalNode) (child : Node)
    (hc : child ∈ f.Children) :
    child ∉ listedItems opts f ↔
      child.IsHiddenFile = true ∧ opts.includeHiddenFiles = false := by
  unfold listedItems
  rw [List.mem_filter]
  constructor
  · intro h
    by_cases hh : child.IsHiddenFile = true
    · refine ⟨hh, ?_⟩
      by_cases hi : opts.includeHiddenFiles = true
      · exact absurd ⟨hc, by simp [hi]⟩ h
      · simpa using hi
    · simp only [Bool.not_eq_true] at hh
      exact absurd ⟨hc, by simp [hh]⟩ h
  · rintro ⟨hh, hi⟩ ⟨_, hpred⟩
    rw [hh, hi] at hpred
    simp at hpred

/-- **C5 witness.**  The amended filter rule, instantiated on the `.git`
example: exclusion holds exactly because the flag is set and the option is
unset. -/
theorem c5_hidden_filter_witness :
    gitNode ∈ rootHidden.Children ∧
      (gitNode ∉ listedItems opts0 rootHidden ↔
        gitNode.IsHiddenFile = true ∧ opts0.includeHiddenFiles = false) :=
  ⟨by decide, c5_hidden_filter opts0 rootHidden gitNode (by decide)⟩

/-! ## Structure of slash-joined keys -/

theorem intercalate_slash_cons (d : List Char) (ds : List (List Char)) (h : ds ≠ []) :
    ['/'].intercalate (d :: ds) = d ++ '/' :: ['/'].intercalate ds := by
  cases ds with
  | nil => exact absurd rfl h
  | cons e es => rfl

theorem joinSlash_singleton (a : String) : joinSlash [a] = a := by
  apply String.ext
  show (List.intersperse ['/'] [a.data]).flatten = a.data
  rw [List.intersperse_single]
  simp

theorem joinSlash_cons_ne (a : String) (L : List String) (h : L ≠ []) :
    joinSlash (a :: L) = a ++ "/" ++ joinSlash L := by
  apply String.ext
  show ['/'].intercalate (a.data :: L.map String.data) = ((a ++ "/") ++ joinSlash L).data
  rw [intercalate_slash_cons _ _ (by simpa using h)]
  rw [String.data_append, String.data_append]
  show a.data ++ '/' :: (joinSlash L).data = (a.data ++ ['/']) ++ (joinSlash L).data
  rw [List.append_assoc]
  rfl

theorem joinSlash_append (A B : List String) (hA : A ≠ []) (hB : B ≠ []) :
    joinSlash (A ++ B) = joinSlash A ++ "/" ++ joinSlash B := by
  induction A with
  | nil => exact absurd rfl hA
  | cons a A' ih =>
    cases A' with
    | nil =>
      rw [List.singleton_append, joinSlash_cons_ne a B hB, joinSlash_singleton]
    | cons b A'' =>
      have hA' : (b :: A'') ≠ [] := List.cons_ne_nil _ _
      have hA'B : (b :: A'') ++ B ≠ [] := by simp
      rw [List.cons_append, joinSlash_cons_ne a ((b :: A'') ++ B) hA'B, ih hA',
        joinSlash_cons_ne a (b :: A'') hA']
      simp [String.append_assoc]

theorem joinSlash_ends (L : List String) (hne : L ≠ [])
    (h : ∀ part ∈ L, part.data ≠ [] ∧ '/' ∉ part.data) :
    ∃ c cs c' cs', (joinSlash L).data = c :: cs ∧ c ≠ '/' ∧
      (joinSlash L).data.reverse = c' :: cs' ∧ c' ≠ '/' := by
  induction L with
  | nil => exact absurd rfl hne
  | cons a L' ih =>
    obtain ⟨ha1, ha2⟩ := h a (List.mem_cons_self a L')
    cases L' with
    | nil =>
      rw [joinSlash_singleton]
      cases hd : a.data with
      | nil => exact absurd hd ha1
      | cons c cs =>
        have hcne : c ≠ '/' := by
          intro hc
          exact ha2 (hc ▸ (hd ▸ List.mem_cons_self c cs))
        cases hr : a.data.reverse with
        | nil =>
          rw [List.reverse_eq_nil_iff] at hr
          exact absurd hr ha1
        | cons c' cs' =>
          have hc'mem : c' ∈ a.data := by
            rw [← List.mem_reverse, hr]
            exact List.mem_cons_self c' cs'
          refine ⟨c, cs, c', cs', rfl, hcne, ?_, fun h' => ha2 (h' ▸ hc'mem)⟩
          rw [← hd]
          exact hr
    | cons b L'' =>
      have hL' : (b :: L'') ≠ [] := List.cons_ne_nil _ _
      obtain ⟨c, cs, c', cs', hd, hcne, hr, hc'ne⟩ :=
        ih hL' (fun p hp => h p (List.mem_cons_of_mem _ hp))
      rw [joinSlash_cons_ne a (b :: L'') hL', String.data_append, String.data_append]
      cases hda : a.data with
      | nil => exact absurd hda ha1
      | cons e es =>
        have hene : e ≠ '/' := by
          intro he
          exact ha2 (he ▸ (hda ▸ List.mem_cons_self e es))
        refine ⟨e, (es ++ ['/']) ++ (joinSlash (b :: L'')).data, c',
          cs' ++ (((e :: es) ++ ['/']).reverse), ?_, hene, ?_, hc'ne⟩
        · rfl
        · rw [List.reverse_append, hr]
          rfl

theorem norm_eq_self_of_ends (s : String)
    (h1 : ∃ c cs, s.data = c :: cs ∧ c ≠ '/')
    (h2 : ∃ c cs, s.data.reverse = c :: cs ∧ c ≠ '/') :
    removeLeadingTrailingSlashes s = s := by
  obtain ⟨c, cs, hd, hc⟩ := h1
  obtain ⟨c', cs', hrev, hc'⟩ := h2
  unfold removeLeadingTrailingSlashes
  have e1 : s.data.dropWhile (fun x => x == '/') = s.data := by
    rw [hd, List.dropWhile_cons, if_neg (by simp [hc])]
  have e2 : s.data.reverse.dropWhile (fun x => x == '/') = s.data.reverse := by
    rw [hrev, List.dropWhile_cons, if_neg (by simp [hc'])]
  rw [e1, e2, List.reverse_reverse]

theorem norm_joinSlash (L : List String) (hne : L ≠ [])
    (h : ∀ part ∈ L, part.data ≠ [] ∧ '/' ∉ part.data) :
    removeLeadingTrailingSlashes (joinSlash L) = joinSlash L := by
  obtain ⟨c, cs, c', cs', h1, h2, h3, h4⟩ := joinSlash_ends L hne h
  exact norm_eq_self_of_ends _ ⟨c, cs, h1, h2⟩ ⟨c', cs', h3, h4⟩

/-- A raw key is canonical when it equals its parsed segments rejoined with
`"/"` (no leading, trailing or repeated slashes).  `undefined` keys are
treated as canonical here; they crash the pipeline anyway. -/
def canonicalKey : Option String → Bool
  | none => true
  | some s => s == joinSlash (splitKeyF s)

theorem canonicalKey_some (s : String) (h : canonicalKey (some s) = true) :
    s = joinSlash (splitKeyF s) := by
  simpa [canonicalKey] using h

theorem isPrefixOf_self_append (l t : List Char) : l.isPrefixOf (l ++ t) = true := by
  induction l with
  | nil => simp
  | cons c cs ih =>
    show (c == c && cs.isPrefixOf (cs ++ t)) = true
    simp [ih]

theorem append_slash_ne (p r : String) : p ++ "/" ++ r ≠ p := by
  intro h
  have hlen : (p ++ "/" ++ r).data.length = p.data.length := by rw [h]
  rw [String.data_append, String.data_append] at hlen
  simp at hlen

/-! ## Membership in the pipeline stages -/

theorem mapNodes_some_mem (opts : Options) (allKeys : List (Option String)) :
    ∀ (l : List (Option String)) (nodes : List Node),
      mapNodes opts allKeys l = some nodes →
        ∀ y ∈ nodes, ∃ k ∈ l, mkNode opts allKeys k = some y := by
  intro l
  induction l with
  | nil =>
    intro nodes h y hy
    simp only [mapNodes] at h
    cases h
    simp at hy
  | cons k rest ih =>
    intro nodes h y hy
    simp only [mapNodes] at h
    cases hmk : mkNode opts allKeys k with
    | none => rw [hmk] at h; cases h
    | some n =>
      rw [hmk] at h
      cases hrest : mapNodes opts allKeys rest with
      | none => rw [hrest] at h; cases h
      | some ns =>
        rw [hrest] at h
        simp only [Option.map_some'] at h
        cases h
        rcases List.mem_cons.mp hy with rfl | hmem
        · exact ⟨k, List.mem_cons_self _ _, hmk⟩
        · obtain ⟨k', hk', hmk'⟩ := ih ns hrest y hmem
          exact ⟨k', List.mem_cons_of_mem _ hk', hmk'⟩

theorem mem_flatStage (opts : Options) (x y : Node) :
    y ∈ flatStage opts x ↔
      y = x ∨ ∃ i, i < x.LevelsDeep ∧ y = synthAncestor opts x.KeyParts i := by
  unfold flatStage
  rw [List.mem_cons]
  constructor
  · rintro (rfl | hmem)
    · exact Or.inl rfl
    · rw [List.mem_map] at hmem
      obtain ⟨i, hi, rfl⟩ := hmem
      rw [List.mem_reverse, List.mem_range] at hi
      exact Or.inr ⟨i, hi, rfl⟩
  · rintro (rfl | ⟨i, hi, rfl⟩)
    · exact Or.inl rfl
    · refine Or.inr ?_
      rw [List.mem_map]
      exact ⟨i, by rw [List.mem_reverse, List.mem_range]; exact hi, rfl⟩

theorem mkNode_some_fields (opts : Options) (allKeys : List (Option String))
    (k : Option String) (y : Node) (h : mkNode opts allKeys k = some y) :
    ∃ s, k = some s ∧ splitKeyF s ≠ [] ∧ y.Key = s ∧ y.KeyParts = splitKeyF s ∧
      y.LevelsDeep = (splitKeyF s).length ∧
      y.IsFolder = isFolderB allKeys (some s) ∧
      y.IsFile = !isFolderB allKeys (some s) := by
  rw [mkNode_eq_some_iff] at h
  obtain ⟨fn, hfn, hy⟩ := h
  cases k with
  | none => simp at hfn
  | some s =>
    subst hy
    refine ⟨s, rfl, ?_, rfl, rfl, rfl, rfl, rfl⟩
    intro hnil
    have : ((Option.map splitKeyF (some s)).getD []) = [] := by simpa using hnil
    rw [this] at hfn
    cases hfn

theorem dedupF_norm_inj (l : List Node) (y y' : Node)
    (hy : y ∈ dedupF l) (hy' : y' ∈ dedupF l)
    (h : removeLeadingTrailingSlashes y.Key = removeLeadingTrailingSlashes y'.Key) :
    y = y' := by
  rw [mem_dedupF_iff] at hy hy'
  have hpred : (fun otherObject : Node =>
      removeLeadingTrailingSlashes otherObject.Key ==
        removeLeadingTrailingSlashes y.Key) =
      (fun otherObject : Node =>
        removeLeadingTrailingSlashes otherObject.Key ==
          removeLeadingTrailingSlashes y'.Key) := by
    funext z
    rw [h]
  rw [hpred] at hy
  rw [hy] at hy'
  exact Option.some.inj hy'

theorem attachChildren_node (arr : List Node) (o : Node) :
    (attachChildren arr o).node = o := rfl

theorem norm_root_key : removeLeadingTrailingSlashes "/" = "" := rfl

/-- Core of C3, at the level of the deduped node array: for a kept *file* node
and a proper prefix depth `i`, the deduped array keeps exactly one node whose
normalized key is the prefix key, that node's raw key is exactly the prefix
key, and it is a folder. -/
theorem ancestor_kept_folder (opts : Options) (listing : List (Option String))
    (nodes : List Node) (hnodes : mapNodes opts listing listing = some nodes)
    (hcanon : ∀ k ∈ listing, canonicalKey k = true)
    (o : Node) (ho : o ∈ dedupF (nodes.flatMap (flatStage opts)))
    (hfile : o.IsFile = true)
    (i : Nat) (hi1 : 1 ≤ i) (hi2 : i < o.LevelsDeep) :
    ∃ y, y ∈ dedupF (nodes.flatMap (flatStage opts)) ∧ y.IsFolder = true ∧
      y.Key = joinSlash (o.KeyParts.take i) ∧
      ∀ y' ∈ dedupF (nodes.flatMap (flatStage opts)),
        removeLeadingTrailingSlashes y'.Key =
          removeLeadingTrailingSlashes (joinSlash (o.KeyParts.take i)) → y' = y := by
  have homerged : o ∈ nodes.flatMap (flatStage opts) :=
    dedupF_subset _ o ho
  obtain ⟨x, hx, hyx⟩ := List.mem_flatMap.mp homerged
  rcases (mem_flatStage opts x o).mp hyx with heq | ⟨j, hj, heq⟩
  swap
  · exfalso
    rw [heq] at hfile
    exact Bool.false_ne_true hfile
  subst heq
  obtain ⟨k, hk, hmk⟩ := mapNodes_some_mem opts listing listing nodes hnodes o hx
  obtain ⟨s, hks, hpne, hKey, hKP, hLD, hIsF, hIsFile⟩ :=
    mkNode_some_fields opts listing k o hmk
  subst hks
  have hprops : ∀ part ∈ splitKeyF s, part.data ≠ [] ∧ '/' ∉ part.data :=
    fun part hp => mem_splitKeyF s part hp
  have hcs : s = joinSlash (splitKeyF s) := canonicalKey_some s (hcanon (some s) hk)
  have hilen : i < (splitKeyF s).length := by
    rw [← hLD]
    exact hi2
  rw [hKP]
  have htakene : (splitKeyF s).take i ≠ [] := by
    cases hsp : splitKeyF s with
    | nil => rw [hsp] at hilen; simp at hilen
    | cons p ps =>
      cases i with
      | zero => omega
      | succ i' => simp
  have htakeprops : ∀ part ∈ (splitKeyF s).take i, part.data ≠ [] ∧ '/' ∉ part.data :=
    fun part hp => hprops part (List.mem_of_mem_take hp)
  have hnormpI : removeLeadingTrailingSlashes (joinSlash ((splitKeyF s).take i)) =
      joinSlash ((splitKeyF s).take i) :=
    norm_joinSlash _ htakene htakeprops
  obtain ⟨c, cs, c', cs', hpd, hpc, hpr, hpc'⟩ :=
    joinSlash_ends ((splitKeyF s).take i) htakene htakeprops
  have hsynKey : (synthAncestor opts (splitKeyF s) i).Key =
      joinSlash ((splitKeyF s).take i) := by
    unfold synthAncestor
    have hlen : ((joinSlash ((splitKeyF s).take i)).length == 0) = false := by
      have hlen' : (joinSlash ((splitKeyF s).take i)).length = cs.length + 1 := by
        show (joinSlash ((splitKeyF s).take i)).data.length = cs.length + 1
        rw [hpd]
        rfl
      simp [hlen']
    simp only [hlen, Bool.false_eq_true, if_false]
  have hsynmem : synthAncestor opts (splitKeyF s) i ∈ nodes.flatMap (flatStage opts) := by
    rw [List.mem_flatMap]
    refine ⟨o, hx, ?_⟩
    rw [mem_flatStage]
    refine Or.inr ⟨i, hi2, ?_⟩
    rw [hKP]
  obtain ⟨y, hydedup, hynorm, _⟩ := dedupF_covers _ _ hsynmem
  rw [hsynKey, hnormpI] at hynorm
  have hsplits : s = joinSlash ((splitKeyF s).take i) ++ "/" ++
      joinSlash ((splitKeyF s).drop i) := by
    have hdropne : (splitKeyF s).drop i ≠ [] := by
      rw [Ne, List.drop_eq_nil_iff]
      omega
    conv_lhs => rw [hcs]
    rw [← joinSlash_append _ _ htakene hdropne, List.take_append_drop]
  have hymerged : y ∈ nodes.flatMap (flatStage opts) := dedupF_subset _ y hydedup
  have hykey_folder : y.IsFolder = true ∧ y.Key = joinSlash ((splitKeyF s).take i) := by
    obtain ⟨x', hx', hyx'⟩ := List.mem_flatMap.mp hymerged
    rcases (mem_flatStage opts x' y).mp hyx' with heq' | ⟨j, hj, heq'⟩
    · subst heq'
      obtain ⟨k', hk', hmk'⟩ := mapNodes_some_mem opts listing listing nodes hnodes y hx'
      obtain ⟨s', hks', hpne', hKey', hKP', hLD', hIsF', _⟩ :=
        mkNode_some_fields opts listing k' y hmk'
      subst hks'
      have hcs' : s' = joinSlash (splitKeyF s') := canonicalKey_some s' (hcanon (some s') hk')
      have hnorms' : removeLeadingTrailingSlashes s' = s' := by
        calc removeLeadingTrailingSlashes s'
            = removeLeadingTrailingSlashes (joinSlash (splitKeyF s')) := by rw [← hcs']
          _ = joinSlash (splitKeyF s') :=
              norm_joinSlash _ hpne' (fun p hp => mem_splitKeyF s' p hp)
          _ = s' := hcs'.symm
      rw [hKey'] at hynorm
      rw [hnorms'] at hynorm
      refine ⟨?_, by rw [hKey', hynorm]⟩
      rw [hIsF']
      rw [isFolderB_some_iff]
      refine ⟨s, hk, ?_, ?_⟩
      · unfold jsStartsWith
        rw [hynorm]
        have hdataeq : s.data = (joinSlash ((splitKeyF s).take i)).data ++
            ('/' :: (joinSlash ((splitKeyF s).drop i)).data) := by
          conv_lhs => rw [hsplits]
          rw [String.data_append, String.data_append, List.append_assoc]
          rfl
        rw [hdataeq]
        exact isPrefixOf_self_append _ _
      · rw [hynorm]
        intro hseq
        apply append_slash_ne (joinSlash ((splitKeyF s).take i))
          (joinSlash ((splitKeyF s).drop i))
        rw [← hsplits]
        exact hseq
    · subst heq'
      obtain ⟨k'', hk'', hmk''⟩ := mapNodes_some_mem opts listing listing nodes hnodes x' hx'
      obtain ⟨s'', hks'', hpne'', hKey'', hKP'', _, _, _⟩ :=
        mkNode_some_fields opts listing k'' x' hmk''
      refine ⟨rfl, ?_⟩
      by_cases hz : ((joinSlash (x'.KeyParts.take j)).length == 0) = true
      · exfalso
        have hKeyRoot : (synthAncestor opts x'.KeyParts j).Key = "/" := by
          unfold synthAncestor
          simp only [hz, if_true]
        rw [hKeyRoot, norm_root_key] at hynorm
        have hd := congrArg String.data hynorm
        rw [hpd] at hd
        simp at hd
      · have hKeyJ : (synthAncestor opts x'.KeyParts j).Key =
            joinSlash (x'.KeyParts.take j) := by
          unfold synthAncestor
          simp only [hz, Bool.not_eq_true] at *
          simp only [hz, Bool.false_eq_true, if_false]
        have htakejne : x'.KeyParts.take j ≠ [] := by
          intro hJ
          rw [hJ] at hz
          exact hz rfl
        have hprops'' : ∀ part ∈ x'.KeyParts.take j, part.data ≠ [] ∧ '/' ∉ part.data := by
          intro p hp
          rw [hKP''] at hp
          exact mem_splitKeyF s'' p (List.mem_of_mem_take hp)
        have hnormJ : removeLeadingTrailingSlashes (joinSlash (x'.KeyParts.take j)) =
            joinSlash (x'.KeyParts.take j) := norm_joinSlash _ htakejne hprops''
        rw [hKeyJ, hnormJ] at hynorm
        rw [hKeyJ, hynorm]
  obtain ⟨hyfolder, hykey⟩ := hykey_folder
  refine ⟨y, hydedup, hyfolder, hykey, ?_⟩
  intro y' hy' hnorm'
  refine dedupF_norm_inj _ y' y hy' hydedup ?_
  rw [hnorm', hnormpI]
  rw [hykey] at hynorm
  rw [← hynorm]
  rw [hykey]

/-- The listing on which C3 as stated fails: `"a//"` is classified as a
*file* (no other key extends it literally), yet its normalized key `"a"`
collides with — and, being first, evicts — the synthesized folder `"a"`
required by the file `"a/b"`. -/
def keysQuirk : List (Option String) := [some "a//", some "a/b"]

/-- The resulting tree: `[a// file, / root, a/b file]`. -/
def treeQuirk : List FinalNode := (buildTree opts0 keysQuirk).getD []

/-- The `a/b` file entry of `treeQuirk`. -/
def fileAB : FinalNode := treeQuirk.getD 2 ⟨node0, []⟩

/-- **C3 counterexample.**  In the tree of `["a//", "a/b"]` the file `a/b` has
depth 2, its depth-1 prefix key is `"a"`, and *no folder node* with normalized
key `"a"` exists in the tree (the only node normalizing to `"a"` is the file
`"a//"`): the claim fails without a canonicality precondition. -/
theorem c3_counterexample :
    buildTree opts0 keysQuirk = some treeQuirk ∧
      fileAB ∈ treeQuirk ∧ fileAB.node.IsFile = true ∧
      fileAB.node.LevelsDeep = 2 ∧
      joinSlash (fileAB.node.KeyParts.take 1) = "a" ∧
      treeQuirk.all (fun g => !(g.node.IsFolder &&
        (removeLeadingTrailingSlashes g.node.Key == "a"))) = true :=
  ⟨rfl, by decide, by decide, by decide, by decide, by decide⟩

/-- **C3 (amended).**  Under the precondition that every listed key is
canonical (it equals its parsed segments rejoined with `"/"`; no leading,
trailing or repeated slashes), for every file node of depth `N` in the final
tree and every `1 ≤ i < N`, the tree contains a folder node whose key is
exactly the first `i` segments joined, and it is the unique tree node with
that normalized key. -/
theorem c3_ancestor_folders (opts : Options) (listing : List (Option String))
    (tree : List FinalNode) (h : buildTree opts listing = some tree)
    (hcanon : ∀ k ∈ listing, canonicalKey k = true)
    (f : FinalNode) (hf : f ∈ tree) (hfile : f.node.IsFile = true)
    (i : Nat) (hi1 : 1 ≤ i) (hi2 : i < f.node.LevelsDeep) :
    ∃ g, g ∈ tree ∧ g.node.IsFolder = true ∧
      g.node.Key = joinSlash (f.node.KeyParts.take i) ∧
      ∀ g' ∈ tree, removeLeadingTrailingSlashes g'.node.Key =
        removeLeadingTrailingSlashes (joinSlash (f.node.KeyParts.take i)) → g' = g := by
  unfold buildTree at h
  rw [Option.map_eq_some'] at h
  obtain ⟨nodes, hnodes, htree⟩ := h
  subst htree
  unfold childrenStage at hf ⊢
  rcases List.mem_map.mp hf with ⟨o, ho, rfl⟩
  have hfile' : o.IsFile = true := hfile
  have hi2' : i < o.LevelsDeep := hi2
  obtain ⟨y, hyd, hyfolder, hykey, huniq⟩ :=
    ancestor_kept_folder opts listing nodes hnodes hcanon o ho hfile' i hi1 hi2'
  refine ⟨attachChildren (dedupF (nodes.flatMap (flatStage opts))) y,
    List.mem_map_of_mem _ hyd, hyfolder, hykey, ?_⟩
  intro g' hg' hnorm'
  rcases List.mem_map.mp hg' with ⟨o', ho', rfl⟩
  have ho'y : o' = y := huniq o' ho' hnorm'
  rw [ho'y]

/-- The canonical deep listing used to instantiate C3. -/
def keysDeep : List (Option String) := [some "a/b/c.txt"]

/-- Its tree: `[c.txt file, a/b folder, a folder, root]`. -/
def treeDeep : List FinalNode := (buildTree opts0 keysDeep).getD []

/-- The `a/b/c.txt` file entry of `treeDeep`. -/
def fileDeep : FinalNode := treeDeep.getD 0 ⟨node0, []⟩

/-- **C3 witness.**  On `["a/b/c.txt"]` (canonical keys), the depth-1 ancestor
folder `a` of the depth-3 file exists in the tree, with the stated uniqueness. -/
theorem c3_ancestor_folders_witness :
    buildTree opts0 keysDeep = some treeDeep ∧
      (∀ k ∈ keysDeep, canonicalKey k = true) ∧
      fileDeep ∈ treeDeep ∧ fileDeep.node.IsFile = true ∧
      1 ≤ 1 ∧ 1 < fileDeep.node.LevelsDeep ∧
      (∃ g, g ∈ treeDeep ∧ g.node.IsFolder = true ∧
        g.node.Key = joinSlash (fileDeep.node.KeyParts.take 1) ∧
        ∀ g' ∈ treeDeep, removeLeadingTrailingSlashes g'.node.Key =
          removeLeadingTrailingSlashes (joinSlash (fileDeep.node.KeyParts.take 1)) →
            g' = g) :=
  ⟨rfl, by decide, by decide, by decide, by decide, by decide,
    c3_ancestor_folders opts0 keysDeep treeDeep rfl (by decide) fileDeep (by decide)
      (by decide) 1 (by decide) (by decide)⟩

end S3X
